import Mathlib

/-!
Verification of the starfish graph-based decoding core and the
`CropParameters` utilities.

The graph decoder (the engine behind `LocalGraphBlobDetector`) is not
present in the repository snapshot; its definitions below are modelled
from the specification (sections 3, 4, 6, 7), as their doc comments
state.  The `CropParameters` definitions are embedded directly from
`starfish/imagestack/parser/crop.py`.
-/

/-! ## Data model of the graph decoder -/

/-- Modelled from the spec (section 3, missing source
`LocalGraphBlobDetector`): a consolidated Spot carries its round index,
its spatial position (2 or 3 dimensions; here an arbitrary-length list
of rational coordinates), and a quality score.  Intensity metadata not
used by graph construction is omitted. -/
structure Spot where
  round : Nat
  pos : List ℚ
  quality : ℚ

/-- Default spot used to totalise list indexing. -/
def defaultSpot : Spot := ⟨0, [], 0⟩

/-- Round index of the node with index `i` in the spot list. -/
def roundOf (spots : List Spot) (i : Nat) : Nat := (spots.getD i defaultSpot).round

/-- Position of the node with index `i` in the spot list. -/
def posOf (spots : List Spot) (i : Nat) : List ℚ := (spots.getD i defaultSpot).pos

/-- Quality of the node with index `i` in the spot list. -/
def qualOf (spots : List Spot) (i : Nat) : ℚ := (spots.getD i defaultSpot).quality

/-- Squared Euclidean distance between two positions.  The spec compares
Euclidean distances against radii; the embedding compares squares to
stay inside ℚ, which is equivalent for nonnegative radii. -/
def dist2 (p q : List ℚ) : ℚ :=
  ((List.zipWith (fun a b => a - b) p q).map (fun d => d * d)).sum

/-! ## CandidateGraphBuilder (spec 4.2) -/

/-- Modelled from the spec (4.2 CandidateGraphBuilder, missing source):
an undirected edge joins two distinct nodes of different rounds whose
Euclidean distance is at most `search_radius` (compared as squares). -/
def candidateEdge (spots : List Spot) (r : ℚ) (i j : Nat) : Bool :=
  decide (i < spots.length) && decide (j < spots.length) && decide (i ≠ j)
    && decide (roundOf spots i ≠ roundOf spots j)
    && decide (dist2 (posOf spots i) (posOf spots j) ≤ r * r)

/-- One breadth-first expansion step over the node set `0 .. n-1`:
keep every node already in the frontier and add every node adjacent to
the frontier. -/
def expand (adj : Nat → Nat → Bool) (n : Nat) (cur : List Nat) : List Nat :=
  (List.range n).filter (fun j => decide (j ∈ cur) || cur.any (fun i => adj i j))

/-- Modelled from the spec (4.2: components via breadth-first
traversal): all nodes reachable from `i`, obtained by `n` expansion
steps, enough to saturate on `n` nodes. -/
def reachSet (adj : Nat → Nat → Bool) (n : Nat) (i : Nat) : List Nat :=
  (expand adj n)^[n] [i]

/-- Whether `j` lies in the connected component of `i`. -/
def sameComp (adj : Nat → Nat → Bool) (n : Nat) (i j : Nat) : Bool :=
  decide (j ∈ reachSet adj n i)

/-- Modelled from the spec (4.2): the list of connected components of
the graph on nodes `0 .. n-1`, each component listed once. -/
def components (adj : Nat → Nat → Bool) (n : Nat) : List (List Nat) :=
  (List.range n).foldl
    (fun acc v => if acc.any (fun c => decide (v ∈ c)) then acc else acc ++ [reachSet adj n v]) []

/-! ## ConnectivityRepairer (spec 4.3) -/

/-- Whether nodes `i` and `j` lie in consecutive rounds. -/
def consecutive (spots : List Spot) (i j : Nat) : Bool :=
  decide (roundOf spots i + 1 = roundOf spots j)
    || decide (roundOf spots j + 1 = roundOf spots i)

/-- Modelled from the spec (4.3 ConnectivityRepairer, missing source):
the edge set after repair.  A repair edge joins two nodes of the same
existing component, not already joined, lying in consecutive rounds and
within `search_radius_max` (compared as squares). -/
def repairedEdge (spots : List Spot) (r rmax : ℚ) (i j : Nat) : Bool :=
  candidateEdge spots r i j
    || (sameComp (candidateEdge spots r) spots.length i j
        && !(candidateEdge spots r i j)
        && consecutive spots i j
        && decide (dist2 (posOf spots i) (posOf spots j) ≤ rmax * rmax))

/-! ## SequenceSelector (spec 4.4) -/

/-- Modelled from the spec (4.4 steps 1 and 2): the flow adjacency after
pruning.  Only repaired edges between consecutive rounds survive the
prune, and flow direction runs from the lower round to the higher. -/
def flowAdj (spots : List Spot) (r rmax : ℚ) (i j : Nat) : Bool :=
  repairedEdge spots r rmax i j && decide (roundOf spots j = roundOf spots i + 1)

/-- Nodes of a component that lie in round `rd`. -/
def nodesOfRound (spots : List Spot) (comp : List Nat) (rd : Nat) : List Nat :=
  comp.filter (fun v => decide (roundOf spots v = rd))

/-- Whether `v` is adjacent to the head of a path. -/
def headAdj (adj : Nat → Nat → Bool) (v : Nat) : List Nat → Bool
  | [] => false
  | h :: _ => adj v h

/-- All round-ordered paths that pick one node per round `r0, r0+1, ...`
for `k` successive rounds, following the adjacency. -/
def pathsLen (adj : Nat → Nat → Bool) (nodesOf : Nat → List Nat) : Nat → Nat → List (List Nat)
  | _, 0 => []
  | r0, 1 => (nodesOf r0).map (fun v => [v])
  | r0, k + 2 =>
    ((nodesOf r0).map (fun v =>
      ((pathsLen adj nodesOf (r0 + 1) (k + 1)).filter (headAdj adj v)).map
        (fun p => v :: p))).flatten

/-- Modelled from the spec (4.4 steps 2 and 3): the source feeds every
round-0 node and the sink drains every last-round node, so the feasible
S-T paths are exactly the round-ordered paths spanning rounds
`0 .. nRounds - 1` inside the component. -/
def allPaths (spots : List Spot) (r rmax : ℚ) (nRounds : Nat) (comp : List Nat) :
    List (List Nat) :=
  pathsLen (flowAdj spots r rmax) (nodesOfRound spots comp) 0 nRounds

/-- Whether two paths share no node. -/
def disjointPair (p q : List Nat) : Bool := p.all (fun v => !(decide (v ∈ q)))

/-- Whether the paths of a set are pairwise node-disjoint. -/
def pairwiseDisjoint : List (List Nat) → Bool
  | [] => true
  | p :: rest => rest.all (disjointPair p) && pairwiseDisjoint rest

/-- Modelled from the spec (4.4 step 2): the cost of a flow edge
decreases with endpoint quality and increases with distance,
`cost = distance - lam * (quality_a + quality_b)`; distance is
represented by its square, and the constant non-negativity shift the
spec allows is omitted since it does not change the selection. -/
def edgeCost (spots : List Spot) (lam : ℚ) (i j : Nat) : ℚ :=
  dist2 (posOf spots i) (posOf spots j) - lam * (qualOf spots i + qualOf spots j)

/-- Total cost of one path: the sum of its edge costs. -/
def pathCost (spots : List Spot) (lam : ℚ) (p : List Nat) : ℚ :=
  ((p.zip p.tail).map (fun ij => edgeCost spots lam ij.1 ij.2)).sum

/-- Total cost of a set of paths. -/
def setCost (spots : List Spot) (lam : ℚ) (c : List (List Nat)) : ℚ :=
  (c.map (pathCost spots lam)).sum

/-- Keep the better of two path sets: larger cardinality first (maximum
flow), then smaller total cost (minimum cost), first seen on ties. -/
def betterSet (spots : List Spot) (lam : ℚ) (a c : List (List Nat)) : List (List Nat) :=
  if a.length < c.length then c
  else if c.length = a.length ∧ setCost spots lam c < setCost spots lam a then c
  else a

/-- Modelled from the spec (4.4 steps 3 and 4, missing source): with all
capacities 1, an integral minimum-cost maximum-flow is exactly a
maximum-cardinality set of vertex-disjoint S-T paths of least total
cost (the spec states this equivalence); the spec fixes no canonical
tie-break beyond determinism, so the embedding keeps the first optimum
of a canonical enumeration. -/
def sequenceSelector (spots : List Spot) (r rmax lam : ℚ) (nRounds : Nat) (comp : List Nat) :
    List (List Nat) :=
  (((allPaths spots r rmax nRounds comp).sublists.filter pairwiseDisjoint).foldl
    (betterSet spots lam) [])

/-- Modelled from the spec (sections 2 and 4, missing source): the full
decoding pipeline on one spot set.  Components are those of the
candidate graph (repair preserves them); each is decoded independently
and the per-component outputs are concatenated. -/
def graphDecode (spots : List Spot) (r rmax lam : ℚ) (nRounds : Nat) : List (List Nat) :=
  ((components (candidateEdge spots r) spots.length).map
    (sequenceSelector spots r rmax lam nRounds)).flatten

/-! ## Configuration validation (spec 6, 7) -/

/-- Modelled from the spec (section 7): the construction-time
configuration errors. -/
inductive ConfigError where
  | nonPositiveRadius
  | maxBelowRadius
deriving DecidableEq

/-- Modelled from the spec (section 6): the validated decoder
configuration. -/
structure DecoderConfig where
  searchRadius : ℚ
  searchRadiusMax : ℚ
deriving DecidableEq

/-- Modelled from the spec (sections 6 and 7, missing source): eager
construction-time validation; a non-positive radius or
`search_radius_max` below `search_radius` is a configuration error, and
accepted values are stored unchanged, never clamped. -/
def mkDecoderConfig (r rmax : ℚ) : Except ConfigError DecoderConfig :=
  if r ≤ 0 then .error .nonPositiveRadius
  else if rmax < r then .error .maxBelowRadius
  else .ok ⟨r, rmax⟩

/-! ## Quality score (spec 3, 4.1, 7) -/

/-- Sum of squares of a channel intensity vector (the squared L2 norm). -/
def sumSq (v : List ℚ) : ℚ := (v.map (fun x => x * x)).sum

/-- Maximum entry of a channel intensity vector (0 when empty). -/
def maxIntensity (v : List ℚ) : ℚ := v.foldr max 0

/-- Modelled from the spec (section 7): the defined fallback score for a
spot whose intensity vector is all zero; the spec fixes its existence,
not its value, so the embedding uses 0. -/
def fallbackQuality : ℚ := 0

/-- Modelled from the spec (sections 3 and 4.1, missing source):
quality = (max per-channel intensity) / (L2 norm of the intensity
vector), represented by its square to stay inside ℚ; an all-zero
vector takes the fallback score instead of dividing by zero. -/
def qualityScoreSq (v : List ℚ) : ℚ :=
  if sumSq v = 0 then fallbackQuality else maxIntensity v * maxIntensity v / sumSq v

/-! ## CropParameters (from `starfish/imagestack/parser/crop.py`) -/

/-- A tile key: round, channel and z-plane indices
(`starfish/imagestack/parser`). -/
structure TileKey where
  round : Nat
  ch : Nat
  z : Nat
deriving DecidableEq

/-- A Python crop argument: either an int index or a slice with
optional start and stop (the step of a slice is never consulted by
`_crop_axis`). -/
inductive PyCropIndex where
  | idx (i : Int)
  | slc (start stop : Option Int)
deriving DecidableEq

/-- The stored state of a `CropParameters` object. -/
structure CropParameters where
  permittedRounds : Option (List Nat)
  permittedChs : Option (List Nat)
  permittedZplanes : Option (List Nat)
  xSlice : Option PyCropIndex
  ySlice : Option PyCropIndex

/-- `set(x) if x else None` of `CropParameters.__init__`: Python
truthiness maps both `None` and an empty collection to `None`; the set
is modelled as the underlying list, of which only membership is used. -/
def storePermitted (l : Option (List Nat)) : Option (List Nat) :=
  match l with
  | none => none
  | some l => if l.isEmpty then none else some l

/-- `CropParameters.__init__`. -/
def cropParametersInit (permittedRounds permittedChs permittedZplanes : Option (List Nat))
    (xSlice ySlice : Option PyCropIndex) : CropParameters :=
  { permittedRounds := storePermitted permittedRounds
    permittedChs := storePermitted permittedChs
    permittedZplanes := storePermitted permittedZplanes
    xSlice := xSlice
    ySlice := ySlice }

/-- `CropParameters.filter_tilekeys`: keep the tile keys whose round,
channel and z-plane each pass their permitted filter (an unset filter
passes everything); the source's loop with `continue` is the filter by
the conjunction of the three tests. -/
def filterTilekeys (cp : CropParameters) (tilekeys : List TileKey) : List TileKey :=
  tilekeys.filter (fun tk =>
    (match cp.permittedRounds with | none => true | some s => s.contains tk.round)
    && (match cp.permittedChs with | none => true | some s => s.contains tk.ch)
    && (match cp.permittedZplanes with | none => true | some s => s.contains tk.z))

/-- The start/stop conversion of `CropParameters._crop_axis`: an unset
bound falls back to its default (0 for start, the size for stop), a
negative bound is taken from the end clamped at 0, and a nonnegative
bound is clamped at the size. -/
def resolveBound (size : Nat) (s : Option Int) (dflt : Int) : Int :=
  match s with
  | none => dflt
  | some s => if s < 0 then max 0 ((size : Int) + s) else min (size : Int) s

/-- `CropParameters._crop_axis`: given the size along an axis and an
optional crop, the start (inclusive) and end (exclusive) indices of the
crop; an out-of-range int crop raises `IndexError`. -/
def cropAxis (size : Nat) (crop : Option PyCropIndex) : Except String (Int × Int) :=
  match crop with
  | some (.idx i) =>
    if i < 0 ∨ (size : Int) ≤ i then .error "crop index out of range"
    else .ok (i, i + 1)
  | none => .ok (0, (size : Int))
  | some (.slc st sp) => .ok (resolveBound size st 0, resolveBound size sp (size : Int))

/-- `CropParameters.crop_shape`: the (height, width) of the cropped
tile, computed from the axis crops of the original (height, width). -/
def cropShape (cp : CropParameters) (shape : Nat × Nat) : Except String (Int × Int) :=
  match cropAxis shape.2 cp.xSlice, cropAxis shape.1 cp.ySlice with
  | .ok xs, .ok ys => .ok (ys.2 - ys.1, xs.2 - xs.1)
  | .error e, _ => .error e
  | _, .error e => .error e

/-- Numpy basic slicing `l[a:b]` for bounds already resolved into
`0 ≤ a, b ≤ l.length` (which `cropAxis` guarantees): the elements from
index `a` up to but excluding `b`, empty when `b ≤ a`. -/
def sliceList (a b : Int) (l : List α) : List α :=
  (l.drop a.toNat).take (b.toNat - a.toNat)

/-- `CropParameters.crop_image`: `image[ystart:ystop, xstart:xstop]`
where the bounds come from the axis crops of the image's shape. -/
def cropImage (cp : CropParameters) (img : List (List α)) : Except String (List (List α)) :=
  match cropAxis (img.head?.getD []).length cp.xSlice, cropAxis img.length cp.ySlice with
  | .ok xs, .ok ys => .ok ((sliceList ys.1 ys.2 img).map (sliceList xs.1 xs.2))
  | .error e, _ => .error e
  | _, .error e => .error e

/-! ## Soundness of the breadth-first reachability -/

/-- Every node found by iterating the expansion step is reachable from
some node of the starting frontier. -/
theorem iterate_expand_sound (adj : Nat → Nat → Bool) (n : Nat) :
    ∀ (k : Nat) (cur : List Nat) (j : Nat), j ∈ (expand adj n)^[k] cur →
      ∃ i ∈ cur, Relation.ReflTransGen (fun a b => adj a b = true) i j := by
  intro k
  induction k with
  | zero =>
    intro cur j hj
    exact ⟨j, hj, .refl⟩
  | succ k ih =>
    intro cur j hj
    rw [Function.iterate_succ_apply'] at hj
    simp only [expand, List.mem_filter, Bool.or_eq_true, decide_eq_true_eq,
      List.any_eq_true] at hj
    rcases hj.2 with hmem | ⟨i', hi', hadj⟩
    · exact ih cur j hmem
    · obtain ⟨i0, hi0, hrtg⟩ := ih cur i' hi'
      exact ⟨i0, hi0, hrtg.tail hadj⟩

/-- `sameComp` only relates nodes joined by a chain of edges. -/
theorem sameComp_sound (adj : Nat → Nat → Bool) (n i j : Nat) (h : sameComp adj n i j = true) :
    Relation.ReflTransGen (fun a b => adj a b = true) i j := by
  simp only [sameComp, decide_eq_true_eq, reachSet] at h
  obtain ⟨i0, hi0, hrtg⟩ := iterate_expand_sound adj n n [i] j h
  rw [List.mem_singleton] at hi0
  subst hi0
  exact hrtg

/-- Every repaired edge joins two nodes already connected in the
candidate graph. -/
theorem repairedEdge_sound (spots : List Spot) (r rmax : ℚ) (b c : Nat)
    (h : repairedEdge spots r rmax b c = true) :
    Relation.ReflTransGen (fun x y => candidateEdge spots r x y = true) b c := by
  simp only [repairedEdge, Bool.or_eq_true, Bool.and_eq_true] at h
  rcases h with h | ⟨⟨⟨hsc, _⟩, _⟩, _⟩
  · exact .single h
  · exact sameComp_sound _ _ _ _ hsc

/-- C1: the connectivity-repair step, applied after graph construction
with `search_radius_max ≥ search_radius`, never changes component
membership: two nodes are joined by a chain of repaired edges exactly
when they are joined by a chain of candidate edges, so the partition of
Spots into connected components is unchanged. -/
theorem connectivityRepair_preserves_components (spots : List Spot) (r rmax : ℚ)
    (hrm : r ≤ rmax) (i j : Nat) :
    Relation.ReflTransGen (fun a b => repairedEdge spots r rmax a b = true) i j ↔
      Relation.ReflTransGen (fun a b => candidateEdge spots r a b = true) i j := by
  constructor
  · intro h
    induction h with
    | refl => exact .refl
    | tail _ hbc ih => exact ih.trans (repairedEdge_sound _ _ _ _ _ hbc)
  · intro h
    refine h.mono ?_
    intro a b hab
    simp [repairedEdge, hab]

/-- Witness for C1 at a concrete graph of two spots. -/
theorem connectivityRepair_preserves_components_witness :
    (2 : ℚ) ≤ 3 ∧
      (Relation.ReflTransGen
          (fun a b => repairedEdge [⟨0, [0], 1⟩, ⟨1, [1], 1⟩] 2 3 a b = true) 0 1 ↔
        Relation.ReflTransGen
          (fun a b => candidateEdge [⟨0, [0], 1⟩, ⟨1, [1], 1⟩] 2 a b = true) 0 1) :=
  ⟨by norm_num, connectivityRepair_preserves_components [⟨0, [0], 1⟩, ⟨1, [1], 1⟩] 2 3
    (by norm_num) 0 1⟩

/-- C2: holding the input spots and `search_radius` fixed, the edge set
after repair grows monotonically with `search_radius_max`: for radii
`r2 ≥ r1 ≥ 0`, every edge present with `search_radius_max = r1` is
present with `search_radius_max = r2`. -/
theorem repairEdges_monotone (spots : List Spot) (r r1 r2 : ℚ) (h0 : 0 ≤ r1) (h12 : r1 ≤ r2)
    (i j : Nat) (h : repairedEdge spots r r1 i j = true) : repairedEdge spots r r2 i j = true := by
  have hsq : r1 * r1 ≤ r2 * r2 := mul_le_mul h12 h12 h0 (h0.trans h12)
  simp only [repairedEdge, Bool.or_eq_true, Bool.and_eq_true, decide_eq_true_eq] at h ⊢
  rcases h with h | ⟨⟨⟨hsc, hne⟩, hcons⟩, hd⟩
  · exact Or.inl h
  · exact Or.inr ⟨⟨⟨hsc, hne⟩, hcons⟩, le_trans hd hsq⟩

/-- Witness for C2 at a concrete graph of two spots. -/
theorem repairEdges_monotone_witness :
    (0 : ℚ) ≤ 2 ∧ (2 : ℚ) ≤ 3 ∧
      repairedEdge [⟨0, [0], 1⟩, ⟨1, [1], 1⟩] 2 3 0 1 = true :=
  ⟨by norm_num, by norm_num,
    repairEdges_monotone [⟨0, [0], 1⟩, ⟨1, [1], 1⟩] 2 2 3 (by norm_num) (by norm_num) 0 1
      (by with_unfolding_all decide)⟩

/-! ## Structure of the enumerated paths -/

/-- Every enumerated path has one node per round: its length is the
number of rounds, its links follow the adjacency, and its `i`-th node
lies in round `r0 + i`. -/
theorem pathsLen_spec (adj : Nat → Nat → Bool) (nodesOf : Nat → List Nat) :
    ∀ (k r0 : Nat) (p : List Nat), p ∈ pathsLen adj nodesOf r0 k →
      p.length = k ∧ List.Chain' (fun a b => adj a b = true) p ∧
        ∀ (i : Nat) (hi : i < p.length), p.get ⟨i, hi⟩ ∈ nodesOf (r0 + i) := by
  intro k
  induction k using Nat.strong_induction_on with
  | _ k ih =>
    match k with
    | 0 =>
      intro r0 p hp
      simp [pathsLen] at hp
    | 1 =>
      intro r0 p hp
      simp only [pathsLen, List.mem_map] at hp
      obtain ⟨v, hv, rfl⟩ := hp
      refine ⟨rfl, List.chain'_singleton v, ?_⟩
      intro i hi
      obtain rfl : i = 0 := by simpa using hi
      simpa using hv
    | k + 2 =>
      intro r0 p hp
      simp only [pathsLen, List.mem_flatten, List.mem_map] at hp
      obtain ⟨l, ⟨v, hv, rfl⟩, hpl⟩ := hp
      rw [List.mem_map] at hpl
      obtain ⟨q, hq, rfl⟩ := hpl
      rw [List.mem_filter] at hq
      obtain ⟨hq, hhead⟩ := hq
      obtain ⟨hlen, hchain, hget⟩ := ih (k + 1) (by omega) (r0 + 1) q hq
      obtain ⟨h, t, rfl⟩ : ∃ h t, q = h :: t := by
        cases q with
        | nil => simp at hlen
        | cons h t => exact ⟨h, t, rfl⟩
      have hadj : adj v h = true := hhead
      refine ⟨?_, List.chain'_cons.mpr ⟨hadj, hchain⟩, ?_⟩
      · simp only [List.length_cons] at hlen ⊢
        omega
      · intro i hi
        match i with
        | 0 => simpa using hv
        | i + 1 =>
          have hi' : i < (h :: t).length := by simpa using hi
          have := hget i hi'
          have harith : r0 + 1 + i = r0 + (i + 1) := by omega
          rw [harith] at this
          simpa using this

/-- The fold that picks the best candidate returns its start value or a
member of the candidate list. -/
theorem foldl_betterSet_mem (spots : List Spot) (lam : ℚ) (l : List (List (List Nat))) :
    ∀ acc : List (List Nat),
      l.foldl (betterSet spots lam) acc = acc ∨ l.foldl (betterSet spots lam) acc ∈ l := by
  induction l with
  | nil => exact fun acc => Or.inl rfl
  | cons c t ih =>
    intro acc
    rcases ih (betterSet spots lam acc c) with h | h
    · rw [List.foldl_cons, h]
      unfold betterSet
      split
      · exact Or.inr (List.mem_cons_self c t)
      · split
        · exact Or.inr (List.mem_cons_self c t)
        · exact Or.inl rfl
    · exact Or.inr (List.mem_cons_of_mem c h)

/-- Every sequence the selector emits is one of the enumerated
round-ordered paths. -/
theorem sequenceSelector_subset (spots : List Spot) (r rmax lam : ℚ) (nRounds : Nat)
    (comp : List Nat) :
    ∀ p ∈ sequenceSelector spots r rmax lam nRounds comp,
      p ∈ allPaths spots r rmax nRounds comp := by
  intro p hp
  rw [sequenceSelector] at hp
  rcases foldl_betterSet_mem spots lam
      ((allPaths spots r rmax nRounds comp).sublists.filter pairwiseDisjoint) [] with h | h
  · rw [h] at hp
    simp at hp
  · rw [List.mem_filter] at h
    have hsub := (List.mem_sublists.mp h.1).subset
    exact hsub hp

/-- A path set that passes the Boolean disjointness check is pairwise
node-disjoint. -/
theorem pairwiseDisjoint_sound :
    ∀ c : List (List Nat), pairwiseDisjoint c = true →
      List.Pairwise (fun p q => ∀ v ∈ p, v ∉ q) c
  | [], _ => List.Pairwise.nil
  | p :: rest, h => by
    simp only [pairwiseDisjoint, Bool.and_eq_true, List.all_eq_true] at h
    refine List.Pairwise.cons ?_ (pairwiseDisjoint_sound rest h.2)
    intro q hq v hv
    have hd := h.1 q hq
    simp only [disjointPair, List.all_eq_true] at hd
    have := hd v hv
    simpa using this

/-- C3: within one connected component, the DecodedSequences the
selector emits are vertex-disjoint: no node appears in more than one
sequence produced from the same component. -/
theorem sequenceSelector_vertex_disjoint (spots : List Spot) (r rmax lam : ℚ) (nRounds : Nat)
    (comp : List Nat) (hc : comp ∈ components (candidateEdge spots r) spots.length) :
    List.Pairwise (fun p q => ∀ v ∈ p, v ∉ q)
      (sequenceSelector spots r rmax lam nRounds comp) := by
  rw [sequenceSelector]
  rcases foldl_betterSet_mem spots lam
      ((allPaths spots r rmax nRounds comp).sublists.filter pairwiseDisjoint) [] with h | h
  · rw [h]
    exact List.Pairwise.nil
  · exact pairwiseDisjoint_sound _ (List.mem_filter.mp h).2

/-- Witness for C3 at a concrete one-component graph of two spots. -/
theorem sequenceSelector_vertex_disjoint_witness :
    [0, 1] ∈ components (candidateEdge [⟨0, [0], 1⟩, ⟨1, [1], 1⟩] 2) 2 ∧
      List.Pairwise (fun p q => ∀ v ∈ p, v ∉ q)
        (sequenceSelector [⟨0, [0], 1⟩, ⟨1, [1], 1⟩] 2 2 0 2 [0, 1]) :=
  ⟨by with_unfolding_all decide,
    sequenceSelector_vertex_disjoint [⟨0, [0], 1⟩, ⟨1, [1], 1⟩] 2 2 0 2 [0, 1]
      (by with_unfolding_all decide)⟩

/-- C4: inside every DecodedSequence of the pipeline output, adjacent
nodes lie in consecutive rounds: the absolute round difference of every
linked pair is 1. -/
theorem decodedSequence_consecutive_rounds (spots : List Spot) (r rmax lam : ℚ)
    (nRounds : Nat) (s : List Nat) (hs : s ∈ graphDecode spots r rmax lam nRounds) :
    List.Chain' (fun a b => ((roundOf spots a : ℤ) - (roundOf spots b : ℤ)).natAbs = 1) s := by
  simp only [graphDecode, List.mem_flatten, List.mem_map] at hs
  obtain ⟨l, ⟨comp, hcomp, rfl⟩, hsl⟩ := hs
  have hsub := sequenceSelector_subset spots r rmax lam nRounds comp s hsl
  obtain ⟨_, hchain, _⟩ := pathsLen_spec _ _ nRounds 0 s hsub
  refine hchain.imp ?_
  intro a b hab
  simp only [flowAdj, Bool.and_eq_true, decide_eq_true_eq] at hab
  omega

/-- Witness for C4 at the three-spot chain of the notebook example. -/
theorem decodedSequence_consecutive_rounds_witness :
    [0, 1, 2] ∈ graphDecode [⟨0, [0], 1⟩, ⟨1, [3], 1⟩, ⟨2, [6], 1⟩] 5 5 0 3 ∧
      List.Chain'
        (fun a b =>
          ((roundOf [⟨0, [0], 1⟩, ⟨1, [3], 1⟩, ⟨2, [6], 1⟩] a : ℤ) -
              (roundOf [⟨0, [0], 1⟩, ⟨1, [3], 1⟩, ⟨2, [6], 1⟩] b : ℤ)).natAbs = 1)
        [0, 1, 2] :=
  ⟨by with_unfolding_all decide,
    decodedSequence_consecutive_rounds [⟨0, [0], 1⟩, ⟨1, [3], 1⟩, ⟨2, [6], 1⟩] 5 5 0 3 [0, 1, 2]
      (by with_unfolding_all decide)⟩

/-- C5: decoding is deterministic: two runs of the pipeline on equal
input Spots and equal configuration produce the same set of
DecodedSequences (as multisets, i.e. up to ordering). -/
theorem graphDecode_deterministic (spots₁ spots₂ : List Spot) (r₁ r₂ rmax₁ rmax₂ lam₁ lam₂ : ℚ)
    (R₁ R₂ : Nat) (hs : spots₁ = spots₂) (hr : r₁ = r₂) (hm : rmax₁ = rmax₂)
    (hl : lam₁ = lam₂) (hR : R₁ = R₂) :
    (graphDecode spots₁ r₁ rmax₁ lam₁ R₁ : Multiset (List Nat)) =
      (graphDecode spots₂ r₂ rmax₂ lam₂ R₂ : Multiset (List Nat)) := by
  subst hs hr hm hl hR
  rfl

/-- Witness for C5 at the three-spot chain. -/
theorem graphDecode_deterministic_witness :
    (graphDecode [⟨0, [0], 1⟩, ⟨1, [3], 1⟩, ⟨2, [6], 1⟩] 5 5 0 3 : Multiset (List Nat)) =
      (graphDecode [⟨0, [0], 1⟩, ⟨1, [3], 1⟩, ⟨2, [6], 1⟩] 5 5 0 3 : Multiset (List Nat)) :=
  graphDecode_deterministic _ _ 5 5 5 5 0 0 3 3 rfl rfl rfl rfl rfl

/-! ## Scenario B (spec 8) -/

/-- For a positive node count, every reachable node is a real node
index. -/
theorem reachSet_lt (adj : Nat → Nat → Bool) (n : Nat) (hn : 0 < n) (i : Nat) :
    ∀ j ∈ reachSet adj n i, j < n := by
  obtain ⟨m, rfl⟩ : ∃ m, n = m + 1 := ⟨n - 1, by omega⟩
  intro j hj
  rw [reachSet, Function.iterate_succ_apply'] at hj
  simp only [expand, List.mem_filter, List.mem_range] at hj
  exact hj.1

/-- Every node of every computed component is a real node index. -/
theorem components_lt (adj : Nat → Nat → Bool) (n : Nat) :
    ∀ comp ∈ components adj n, ∀ v ∈ comp, v < n := by
  have aux : ∀ (l : List Nat) (acc : List (List Nat)),
      (∀ c ∈ acc, ∀ v ∈ c, v < n) → (∀ v ∈ l, v < n) →
        ∀ c ∈ l.foldl
          (fun acc v =>
            if acc.any (fun c => decide (v ∈ c)) then acc else acc ++ [reachSet adj n v]) acc,
          ∀ v ∈ c, v < n := by
    intro l
    induction l with
    | nil =>
      intro acc hacc _ c hc
      exact hacc c hc
    | cons x t ih =>
      intro acc hacc hl
      rw [List.foldl_cons]
      refine ih _ ?_ (fun v hv => hl v (List.mem_cons_of_mem x hv))
      split
      · exact hacc
      · intro c hc
        rw [List.mem_append] at hc
        rcases hc with hc | hc
        · exact hacc c hc
        · rw [List.mem_singleton] at hc
          subst hc
          exact reachSet_lt adj n (by have := hl x (List.mem_cons_self x t); omega) x
  intro comp hc
  exact aux (List.range n) [] (by simp) (fun v hv => List.mem_range.mp hv) comp hc

/-- C8 counterexample: a concrete Scenario A instance (three spots, one
per round, consecutive neighbours within `search_radius = 5`), decoded
with `search_radius_max = 2` below the true consecutive-round distances
(squared distances 9 > 4): decoding yields one DecodedSequence, not
zero, so the claim as stated fails on this input. -/
theorem scenarioB_as_stated_refuted :
    dist2 [(0 : ℚ)] [3] ≤ 5 * 5 ∧ dist2 [(3 : ℚ)] [6] ≤ 5 * 5 ∧
      2 * 2 < dist2 [(0 : ℚ)] [3] ∧ 2 * 2 < dist2 [(3 : ℚ)] [6] ∧
      graphDecode [⟨0, [0], 1⟩, ⟨1, [3], 1⟩, ⟨2, [6], 1⟩] 5 2 0 3 = [[0, 1, 2]] ∧
      graphDecode [⟨0, [0], 1⟩, ⟨1, [3], 1⟩, ⟨2, [6], 1⟩] 5 2 0 3 ≠ [] := by
  with_unfolding_all decide

/-- C8 amended (the spec's Scenario B): for three spots, one per round
of three, whose consecutive-round distances both exceed
`search_radius_max` (with `search_radius_max ≥ search_radius ≥ 0`),
decoding yields zero DecodedSequences. -/
theorem scenarioB_amended (p0 p1 p2 : List ℚ) (q0 q1 q2 r rmax lam : ℚ)
    (h0 : 0 ≤ r) (hrm : r ≤ rmax)
    (h01 : rmax * rmax < dist2 p0 p1) (h12 : rmax * rmax < dist2 p1 p2) :
    graphDecode [⟨0, p0, q0⟩, ⟨1, p1, q1⟩, ⟨2, p2, q2⟩] r rmax lam 3 = [] := by
  have hrr : r * r ≤ rmax * rmax := mul_le_mul hrm hrm h0 (h0.trans hrm)
  set spots : List Spot := [⟨0, p0, q0⟩, ⟨1, p1, q1⟩, ⟨2, p2, q2⟩] with hsp
  have hnop : ∀ comp ∈ components (candidateEdge spots r) spots.length,
      allPaths spots r rmax 3 comp = [] := by
    intro comp hcomp
    rw [List.eq_nil_iff_forall_not_mem]
    intro p hp
    obtain ⟨hlen, hchain, hget⟩ := pathsLen_spec (flowAdj spots r rmax)
      (nodesOfRound spots comp) 3 0 p hp
    obtain ⟨a, b, c, rfl⟩ : ∃ a b c, p = [a, b, c] := by
      rcases p with _ | ⟨a, p⟩
      · simp only [List.length_nil] at hlen
        omega
      rcases p with _ | ⟨b, p⟩
      · simp only [List.length_cons, List.length_nil] at hlen
        omega
      rcases p with _ | ⟨c, p⟩
      · simp only [List.length_cons, List.length_nil] at hlen
        omega
      rcases p with _ | ⟨d, p⟩
      · exact ⟨a, b, c, rfl⟩
      · simp only [List.length_cons, List.length_nil] at hlen
        omega
    have ha := hget 0 (by simp)
    have hb := hget 1 (by simp)
    simp only [List.get, Nat.add_zero, Nat.zero_add, nodesOfRound, List.mem_filter,
      decide_eq_true_eq] at ha hb
    have hlen3 : spots.length = 3 := by rw [hsp]; rfl
    have ha3 : a < 3 := by
      have := components_lt (candidateEdge spots r) spots.length comp hcomp a ha.1
      omega
    have hb3 : b < 3 := by
      have := components_lt (candidateEdge spots r) spots.length comp hcomp b hb.1
      omega
    have ha0 : a = 0 := by
      obtain h | h | h : a = 0 ∨ a = 1 ∨ a = 2 := by omega
      · exact h
      · rw [h] at ha
        simp [roundOf, hsp] at ha
      · rw [h] at ha
        simp [roundOf, hsp] at ha
    have hb1 : b = 1 := by
      obtain h | h | h : b = 0 ∨ b = 1 ∨ b = 2 := by omega
      · rw [h] at hb
        simp [roundOf, hsp] at hb
      · exact h
      · rw [h] at hb
        simp [roundOf, hsp] at hb
    rw [List.chain'_cons] at hchain
    have hab : flowAdj spots r rmax a b = true := hchain.1
    rw [ha0, hb1] at hab
    simp only [flowAdj, repairedEdge, candidateEdge, Bool.and_eq_true, Bool.or_eq_true,
      decide_eq_true_eq] at hab
    have hpos01 : posOf spots 0 = p0 := by rw [hsp]; rfl
    have hpos11 : posOf spots 1 = p1 := by rw [hsp]; rfl
    rcases hab.1 with hcand | hrep
    · rw [hpos01, hpos11] at hcand
      have := hcand.2
      linarith
    · rw [hpos01, hpos11] at hrep
      have := hrep.2
      linarith
  have hsel : ∀ comp ∈ components (candidateEdge spots r) spots.length,
      sequenceSelector spots r rmax lam 3 comp = [] := by
    intro comp hcomp
    rw [sequenceSelector, hnop comp hcomp]
    simp only [List.sublists_nil]
    rw [show List.filter pairwiseDisjoint [([] : List (List Nat))] = [[]] from rfl]
    simp [betterSet]
  rw [graphDecode, List.flatten_eq_nil_iff]
  intro l hl
  rw [List.mem_map] at hl
  obtain ⟨comp, hcomp, rfl⟩ := hl
  exact hsel comp hcomp

/-- Witness for the amended C8 at three collinear far-apart spots. -/
theorem scenarioB_amended_witness :
    (0 : ℚ) ≤ 1 ∧ (1 : ℚ) ≤ 2 ∧ 2 * 2 < dist2 [(0 : ℚ)] [30] ∧
      2 * 2 < dist2 [(30 : ℚ)] [60] ∧
      graphDecode [⟨0, [0], 1⟩, ⟨1, [30], 1⟩, ⟨2, [60], 1⟩] 1 2 0 3 = [] :=
  ⟨by norm_num, by norm_num, by with_unfolding_all decide, by with_unfolding_all decide,
    scenarioB_amended [0] [30] [60] 1 1 1 1 2 0 (by norm_num) (by norm_num)
      (by with_unfolding_all decide) (by with_unfolding_all decide)⟩

/-! ## Configuration and quality claims -/

/-- C6: constructing the decoder with an invalid configuration
(`search_radius_max` below `search_radius`, or a non-positive radius)
fails eagerly with a configuration error, and an accepted configuration
stores the given radii unchanged, never clamped. -/
theorem mkDecoderConfig_rejects_invalid (r rmax : ℚ) :
    ((rmax < r ∨ r ≤ 0 ∨ rmax ≤ 0) → ∃ e, mkDecoderConfig r rmax = .error e) ∧
      ∀ cfg, mkDecoderConfig r rmax = .ok cfg →
        cfg.searchRadius = r ∧ cfg.searchRadiusMax = rmax := by
  constructor
  · intro h
    rw [mkDecoderConfig]
    by_cases h1 : r ≤ 0
    · rw [if_pos h1]
      exact ⟨_, rfl⟩
    · rw [if_neg h1]
      by_cases h2 : rmax < r
      · rw [if_pos h2]
        exact ⟨_, rfl⟩
      · exfalso
        rcases h with h | h | h
        · exact h2 h
        · exact h1 h
        · push_neg at h1 h2
          linarith
  · intro cfg hcfg
    rw [mkDecoderConfig] at hcfg
    by_cases h1 : r ≤ 0
    · rw [if_pos h1] at hcfg
      cases hcfg
    · rw [if_neg h1] at hcfg
      by_cases h2 : rmax < r
      · rw [if_pos h2] at hcfg
        cases hcfg
      · rw [if_neg h2] at hcfg
        cases hcfg
        exact ⟨rfl, rfl⟩

/-- Witness for C6: `search_radius_max` below `search_radius` is
rejected. -/
theorem mkDecoderConfig_rejects_invalid_witness :
    ∃ e, mkDecoderConfig 2 1 = .error e :=
  (mkDecoderConfig_rejects_invalid 2 1).1 (Or.inl (by norm_num))

/-- The maximum intensity is either 0 or attained by an entry. -/
theorem maxIntensity_eq_zero_or_mem (v : List ℚ) :
    maxIntensity v = 0 ∨ maxIntensity v ∈ v := by
  induction v with
  | nil => exact Or.inl rfl
  | cons x t ih =>
    rw [maxIntensity, List.foldr_cons]
    rcases le_total x (t.foldr max 0) with h | h
    · rw [max_eq_right h]
      rcases ih with h0 | hm
      · exact Or.inl h0
      · exact Or.inr (List.mem_cons_of_mem x hm)
    · rw [max_eq_left h]
      exact Or.inr (List.mem_cons_self x t)

/-- Every entry is at most the maximum intensity. -/
theorem le_maxIntensity (v : List ℚ) : ∀ x ∈ v, x ≤ maxIntensity v := by
  induction v with
  | nil => intro x hx; simp at hx
  | cons y t ih =>
    intro x hx
    rw [maxIntensity, List.foldr_cons]
    rcases List.mem_cons.mp hx with rfl | hx
    · exact le_max_left x _
    · exact le_trans (ih x hx) (le_max_right y _)

/-- The squared norm is nonnegative. -/
theorem sumSq_nonneg (v : List ℚ) : 0 ≤ sumSq v := by
  refine List.sum_nonneg ?_
  intro x hx
  rw [List.mem_map] at hx
  obtain ⟨y, _, rfl⟩ := hx
  exact mul_self_nonneg y

/-- The square of any entry is at most the squared norm. -/
theorem sq_le_sumSq (v : List ℚ) (x : ℚ) (hx : x ∈ v) : x * x ≤ sumSq v := by
  refine List.single_le_sum ?_ (x * x) (List.mem_map_of_mem (fun y => y * y) hx)
  intro y hy
  rw [List.mem_map] at hy
  obtain ⟨z, _, rfl⟩ := hy
  exact mul_self_nonneg z

/-- C7: for a spot whose per-channel intensity vector is nonzero (with
nonnegative intensities), the quality score is max intensity over L2
norm (here both squared), its denominator is nonzero, and it lies in
the interval (0, 1]; an all-zero vector takes the defined fallback
score instead of faulting. -/
theorem qualityScore_bounds (v : List ℚ) (hnn : ∀ x ∈ v, 0 ≤ x) :
    ((∃ x ∈ v, x ≠ 0) →
      sumSq v ≠ 0 ∧
        qualityScoreSq v = maxIntensity v * maxIntensity v / sumSq v ∧
        0 < qualityScoreSq v ∧ qualityScoreSq v ≤ 1) ∧
      ((∀ x ∈ v, x = 0) → qualityScoreSq v = fallbackQuality) := by
  constructor
  · rintro ⟨x, hxv, hx0⟩
    have hxpos : 0 < x := lt_of_le_of_ne (hnn x hxv) (Ne.symm hx0)
    have hsum : 0 < sumSq v :=
      lt_of_lt_of_le (mul_pos hxpos hxpos) (sq_le_sumSq v x hxv)
    have hmax : 0 < maxIntensity v := lt_of_lt_of_le hxpos (le_maxIntensity v x hxv)
    have hform : qualityScoreSq v = maxIntensity v * maxIntensity v / sumSq v := by
      rw [qualityScoreSq, if_neg (ne_of_gt hsum)]
    have hmaxsq : maxIntensity v * maxIntensity v ≤ sumSq v := by
      rcases maxIntensity_eq_zero_or_mem v with h | h
      · rw [h]
        simpa using sumSq_nonneg v
      · exact sq_le_sumSq v _ h
    refine ⟨ne_of_gt hsum, hform, ?_, ?_⟩
    · rw [hform]
      exact div_pos (mul_pos hmax hmax) hsum
    · rw [hform]
      exact (div_le_one hsum).mpr hmaxsq
  · intro hz
    have : sumSq v = 0 := by
      rw [sumSq]
      refine List.sum_eq_zero ?_
      intro x hx
      rw [List.mem_map] at hx
      obtain ⟨y, hy, rfl⟩ := hx
      rw [hz y hy]
      ring
    rw [qualityScoreSq, if_pos this]

/-- Witness for C7 at the intensity vector `[3, 4]`. -/
theorem qualityScore_bounds_witness :
    sumSq [(3 : ℚ), 4] ≠ 0 ∧
      qualityScoreSq [(3 : ℚ), 4] = maxIntensity [(3 : ℚ), 4] * maxIntensity [(3 : ℚ), 4] /
        sumSq [(3 : ℚ), 4] ∧
      0 < qualityScoreSq [(3 : ℚ), 4] ∧ qualityScoreSq [(3 : ℚ), 4] ≤ 1 :=
  (qualityScore_bounds [3, 4] (by norm_num)).1 ⟨3, by norm_num, by norm_num⟩

/-! ## CropParameters claims -/

/-- C9: an empty collection passed for `permitted_rounds`,
`permitted_chs` or `permitted_zplanes` behaves exactly like an unset
(`None`) filter: a `CropParameters` built with each permitted argument
unset or empty keeps every input tile key. -/
theorem filterTilekeys_empty_permitted (rs cs zs : Option (List Nat))
    (xsl ysl : Option PyCropIndex) (tks : List TileKey)
    (hr : rs = none ∨ rs = some []) (hc : cs = none ∨ cs = some [])
    (hz : zs = none ∨ zs = some []) :
    filterTilekeys (cropParametersInit rs cs zs xsl ysl) tks = tks := by
  have hr' : storePermitted rs = none := by
    rcases hr with h | h <;> simp [h, storePermitted]
  have hc' : storePermitted cs = none := by
    rcases hc with h | h <;> simp [h, storePermitted]
  have hz' : storePermitted zs = none := by
    rcases hz with h | h <;> simp [h, storePermitted]
  simp [filterTilekeys, cropParametersInit, hr', hc', hz']

/-- Witness for C9: empty permitted collections keep a nonempty tile
key list intact. -/
theorem filterTilekeys_empty_permitted_witness :
    filterTilekeys (cropParametersInit (some []) (some []) (some []) none none)
      [⟨0, 0, 0⟩, ⟨1, 2, 3⟩] = [⟨0, 0, 0⟩, ⟨1, 2, 3⟩] :=
  filterTilekeys_empty_permitted (some []) (some []) (some []) none none
    [⟨0, 0, 0⟩, ⟨1, 2, 3⟩] (Or.inr rfl) (Or.inr rfl) (Or.inr rfl)

/-- A resolved slice bound lies between 0 and the axis size whenever
its default does. -/
theorem resolveBound_bounds (size : Nat) (s : Option Int) (dflt : Int)
    (hd : 0 ≤ dflt ∧ dflt ≤ (size : Int)) :
    0 ≤ resolveBound size s dflt ∧ resolveBound size s dflt ≤ (size : Int) := by
  match s with
  | none => exact hd
  | some s =>
    rw [resolveBound]
    split
    · constructor
      · exact le_max_left 0 _
      · refine max_le (by positivity) (by omega)
    · constructor
      · refine le_min (by positivity) (by omega)
      · exact min_le_left _ _

/-- A successful axis crop returns bounds inside `[0, size]`. -/
theorem cropAxis_bounds (size : Nat) (crop : Option PyCropIndex) (a b : Int)
    (h : cropAxis size crop = .ok (a, b)) :
    0 ≤ a ∧ a ≤ (size : Int) ∧ 0 ≤ b ∧ b ≤ (size : Int) := by
  match crop with
  | none =>
    rw [cropAxis] at h
    simp only [Except.ok.injEq, Prod.mk.injEq] at h
    omega
  | some (.idx i) =>
    rw [cropAxis] at h
    split at h
    · simp at h
    · simp only [Except.ok.injEq, Prod.mk.injEq] at h
      rename_i hcond
      push_neg at hcond
      omega
  | some (.slc st sp) =>
    rw [cropAxis] at h
    simp only [Except.ok.injEq, Prod.mk.injEq] at h
    obtain ⟨rfl, rfl⟩ := h.symm
    have h1 := resolveBound_bounds size st 0 (by constructor <;> positivity)
    have h2 := resolveBound_bounds size sp (size : Int) (by omega)
    exact ⟨h1.1, h1.2, h2.1, h2.2⟩

/-- Length of a slice whose resolved bounds are in range and ordered. -/
theorem sliceList_length {α : Type} (a b : Int) (l : List α)
    (h0 : 0 ≤ a) (hab : a ≤ b) (hb : b ≤ (l.length : Int)) :
    ((sliceList a b l).length : Int) = b - a := by
  rw [sliceList, List.length_take, List.length_drop]
  omega

/-- A slice only contains elements of the original list. -/
theorem sliceList_subset {α : Type} (a b : Int) (l : List α) :
    ∀ x ∈ sliceList a b l, x ∈ l := by
  intro x hx
  rw [sliceList] at hx
  exact List.drop_subset _ _ (List.take_subset _ _ hx)

/-- C10 amended: for every rectangular 2-D image and every crop
combination whose resolved axis bounds satisfy start ≤ stop (and whose
int crops are in range, else both functions raise), the pair returned
by `crop_shape` on the image's shape is exactly the shape of the array
returned by `crop_image`: the row count equals its first component and
every row's length equals its second.  When a resolved start exceeds
its stop the two genuinely disagree: `crop_shape` reports a negative
extent while `crop_image` returns an empty axis. -/
theorem cropShape_matches_cropImage {α : Type} (img : List (List α)) (w : Nat)
    (cp : CropParameters) (shp : Int × Int) (out : List (List α))
    (hw : ∀ row ∈ img, row.length = w)
    (hy : ∀ a b : Int, cropAxis img.length cp.ySlice = .ok (a, b) → a ≤ b)
    (hx : ∀ a b : Int, cropAxis w cp.xSlice = .ok (a, b) → a ≤ b)
    (hshape : cropShape cp (img.length, w) = .ok shp)
    (himg : cropImage cp img = .ok out) :
    (out.length : Int) = shp.1 ∧ ∀ row ∈ out, (row.length : Int) = shp.2 := by
  rw [cropShape] at hshape
  split at hshape
  case _ xs ys hxs hys =>
    simp only [Except.ok.injEq] at hshape
    obtain rfl := hshape
    have hxs2 : cropAxis w cp.xSlice = Except.ok xs := hxs
    have hys2 : cropAxis img.length cp.ySlice = Except.ok ys := hys
    cases img with
    | nil =>
      rw [cropImage] at himg
      split at himg
      case _ xs' ys' hxs' hys' =>
        have hys2' : cropAxis (0 : Nat) cp.ySlice = Except.ok ys' := hys'
        rw [show ([] : List (List α)).length = 0 from rfl] at hys2
        rw [hys2] at hys2'
        injection hys2' with hyseq
        subst hyseq
        simp only [Except.ok.injEq] at himg
        obtain rfl := himg
        have hyb := cropAxis_bounds 0 cp.ySlice ys.1 ys.2 hys2
        constructor
        · simp [sliceList]
          omega
        · intro row hrow
          simp [sliceList] at hrow
      case _ e heq => simp at himg
      case _ ne e heq => simp at himg
    | cons r0 rest =>
      have hr0 : r0.length = w := hw r0 (List.mem_cons_self r0 rest)
      rw [cropImage] at himg
      simp only [List.head?_cons, Option.getD_some, hr0] at himg
      split at himg
      case _ xs' ys' hxs' hys' =>
        have hxs2' : cropAxis w cp.xSlice = Except.ok xs' := hxs'
        have hys2' : cropAxis (r0 :: rest).length cp.ySlice = Except.ok ys' := hys'
        rw [hxs2] at hxs2'
        injection hxs2' with hxseq
        subst hxseq
        rw [hys2] at hys2'
        injection hys2' with hyseq
        subst hyseq
        simp only [Except.ok.injEq] at himg
        obtain rfl := himg
        have hyb := cropAxis_bounds (r0 :: rest).length cp.ySlice ys.1 ys.2 hys2
        have hxb := cropAxis_bounds w cp.xSlice xs.1 xs.2 hxs2
        have hyab : ys.1 ≤ ys.2 := hy ys.1 ys.2 hys2
        have hxab : xs.1 ≤ xs.2 := hx xs.1 xs.2 hxs2
        constructor
        · rw [List.length_map]
          exact sliceList_length ys.1 ys.2 (r0 :: rest) hyb.1 hyab hyb.2.2.2
        · intro row hrow
          rw [List.mem_map] at hrow
          obtain ⟨row', hrow', rfl⟩ := hrow
          have hmem : row' ∈ r0 :: rest := sliceList_subset ys.1 ys.2 (r0 :: rest) row' hrow'
          have hwl : row'.length = w := hw row' hmem
          refine sliceList_length xs.1 xs.2 row' hxb.1 hxab ?_
          rw [hwl]
          exact hxb.2.2.2
      case _ e heq => simp at himg
      case _ ne e heq => simp at himg
  case _ e heq => simp at hshape
  case _ ne e heq => simp at hshape

/-- C10 counterexample: with `y_slice = slice(-1, 1)` on a 4-by-1
image, `crop_shape` reports height -2 while `crop_image` returns the
empty array (height 0), so the shape pair and the array shape
disagree. -/
theorem cropShape_cropImage_mismatch :
    cropShape (cropParametersInit none none none none (some (.slc (some (-1)) (some 1))))
        (4, 1) = .ok (-2, 1) ∧
      cropImage (cropParametersInit none none none none (some (.slc (some (-1)) (some 1))))
          [[(0 : Nat)], [1], [2], [3]] = .ok [] ∧
      ((([] : List (List Nat)).length : Int) ≠ -2) :=
  ⟨rfl, rfl, by decide⟩

/-- Witness for the amended C10 at a 2-by-1 image with
`y_slice = slice(0, 1)`. -/
theorem cropShape_matches_cropImage_witness :
    (([[(0 : Nat)]] : List (List Nat)).length : Int) = ((1 : Int), (1 : Int)).1 ∧
      ∀ row ∈ ([[(0 : Nat)]] : List (List Nat)), ((row.length : Int) = ((1 : Int), (1 : Int)).2) :=
  cropShape_matches_cropImage [[0], [1]] 1
    (cropParametersInit none none none none (some (.slc (some 0) (some 1)))) (1, 1) [[0]]
    (by
      intro row hrow
      simp only [List.mem_cons, List.mem_singleton, List.not_mem_nil, or_false] at hrow
      rcases hrow with rfl | rfl <;> rfl)
    (by
      intro a b h
      simp [cropParametersInit, cropAxis, resolveBound] at h
      omega)
    (by
      intro a b h
      simp [cropParametersInit, cropAxis] at h
      omega)
    rfl rfl
